import Mathlib

/-!
Shallow embedding of the highlight reconciliation engine of `src/window.ts`
(`coc.nvim`): `convertHighlightItem`, `isSame`, `diffHighlights`,
`applyDiffHighlights`, and the cancellation discipline of the modal pickers
(`showQuickPick`, `showMenuPicker`, `showPickerDialog`).

Machine integers of the source are modelled as `Nat` (line numbers, columns
and markers are non-negative and no arithmetic overflows occur in the code).
The stateful loop of `diffHighlights` is modelled as a fold over the scanned
line range with an explicit `DiffState`; the in-place `items.sort` call is
modelled by `sortItems` together with `diffHighlightsItemsAfter`, which gives
the observable content of the caller's array after the call returns.
-/

namespace CocWindow

/-- A desired highlight span (`HighlightItem` of `src/types.ts`):
`hlGroup`, `lnum`, `colStart`, `colEnd`, `combine`, `start_incl`, `end_incl`. -/
structure HighlightItem where
  hlGroup : String
  lnum : Nat
  colStart : Nat
  colEnd : Nat
  combine : Bool
  start_incl : Bool
  end_incl : Bool
deriving DecidableEq, Repr

/-- A backend-reported highlight record (`HighlightItemResult`): the wire
tuple `[hlGroup, lnum, colStart, colEnd, marker]`; field `i` of the structure
is position `i` of the tuple, so `marker` is the source's `o[4]`. -/
structure HighlightItemResult where
  hlGroup : String
  lnum : Nat
  colStart : Nat
  colEnd : Nat
  marker : Nat
deriving DecidableEq, Repr

/-- One positional field of the wire encoding sent to the backend. -/
inductive WireVal where
  | str (s : String)
  | num (n : Nat)
deriving DecidableEq, Repr

/-- The encoded form of one highlight item (`HighlightItemDef`): a positional
record, modelled as the list of its fields. -/
abbrev HighlightItemDef := List WireVal

/-- Embedding of `convertHighlightItem` (`src/window.ts` line 50): the positional record
`[item.hlGroup, item.lnum, item.colStart, item.colEnd, item.combine ? 1 : 0,
item.start_incl ? 1 : 0, item.end_incl ? 1 : 0]`. -/
def convertHighlightItem (item : HighlightItem) : HighlightItemDef :=
  [WireVal.str item.hlGroup, WireVal.num item.lnum, WireVal.num item.colStart,
   WireVal.num item.colEnd, WireVal.num (if item.combine then 1 else 0),
   WireVal.num (if item.start_incl then 1 else 0),
   WireVal.num (if item.end_incl then 1 else 0)]

/-- Embedding of `isSame` (`src/window.ts` line 54): deep equality (`equals` of
`src/util/object`, not under `src/`, is structural equality) of
`[item.hlGroup, item.lnum, item.colStart, item.colEnd]` with the first four
positional fields of the backend record. -/
def isSame (item : HighlightItem) (curr : HighlightItemResult) : Bool :=
  item.hlGroup == curr.hlGroup && item.lnum == curr.lnum &&
    item.colStart == curr.colStart && item.colEnd == curr.colEnd

/-- The diff returned by `diffHighlights` (`HighlightDiff` of `src/types.ts`):
`remove` (lines to clear), `add` (encoded items to set), `removeMarkers`. -/
structure HighlightDiff where
  remove : List Nat
  add : List HighlightItemDef
  removeMarkers : List Nat
deriving DecidableEq, Repr

/-- The comparator `(a, b) => a.lnum - b.lnum` passed to `items.sort`. -/
def itemLe (a b : HighlightItem) : Prop := a.lnum ≤ b.lnum

instance : DecidableRel itemLe := fun a b => Nat.decLe a.lnum b.lnum

instance : IsTotal HighlightItem itemLe := ⟨fun a b => Nat.le_total a.lnum b.lnum⟩

instance : IsTrans HighlightItem itemLe := ⟨fun _ _ _ h h' => Nat.le_trans h h'⟩

/-- The effect of `items.sort((a, b) => a.lnum - b.lnum)` (line 670):
JavaScript `Array.prototype.sort` is a stable sort, modelled by the stable
`List.insertionSort` with key `lnum`. -/
def sortItems (items : List HighlightItem) : List HighlightItem :=
  List.insertionSort itemLe items

/-- The per-line grouping `map.get(i)` built at lines 679-688: the records of
`curr` whose `lnum` is `i`, kept in their reported order. -/
def lineExisting (curr : List HighlightItemResult) (i : Nat) : List HighlightItemResult :=
  curr.filter fun o => o.lnum == i

/-- The `maxLnum` value computed at lines 677-688: `Math.max` folded over the reported
line numbers, starting from `0`. -/
def maxLnum (curr : List HighlightItemResult) : Nat :=
  curr.foldl (fun m o => max m o.lnum) 0

/-- The `skip` counter of lines 718-726: starting from `0`, advance while both
lists have an element at the position and `isSame` holds there; it stops at
the first mismatch or when either list is exhausted. -/
def lcpSame : List HighlightItem → List HighlightItemResult → Nat
  | a :: as, e :: es => if isSame a e then lcpSame as es + 1 else 0
  | _, _ => 0

/-- The check `added.every((o, i) => isSame(o, exists[i]))` of line 729, evaluated only
under equal lengths, where it coincides with this zip-wise conjunction. -/
def allSame (added : List HighlightItem) (ex : List HighlightItemResult) : Bool :=
  (added.zip ex).all fun p => isSame p.1 p.2

/-- The body of the scan loop for one line `i` (lines 704-734), as the triple
of contributions appended to `linesToRemove`, `removeMarkers`, `newItems`. -/
def processLine (checkMarkers : Bool) (i : Nat) (ex : List HighlightItemResult)
    (added : List HighlightItem) : List Nat × List Nat × List HighlightItemDef :=
  if added.length == 0 then
    if ex.length == 0 then ([], [], [])
    else if checkMarkers then ([], ex.map (fun o => o.marker), [])
    else ([i], [], [])
  else
    if ex.length == 0 then ([], [], added.map convertHighlightItem)
    else if checkMarkers then
      ([], (ex.drop (lcpSame added ex)).map (fun o => o.marker),
       (added.drop (lcpSame added ex)).map convertHighlightItem)
    else if added.length != ex.length || !(allSame added ex) then
      ([i], [], added.map convertHighlightItem)
    else ([], [], [])

/-- Positionwise 4-field equality of a desired run and an existing run:
equal lengths and `isSame` at every position. -/
def sameLists : List HighlightItem → List HighlightItemResult → Bool
  | [], [] => true
  | a :: as, e :: es => isSame a e && sameLists as es
  | _, _ => false

/-- A backend state is consistent with the desired items when, on every line,
the reported records equal the desired items of that line under the 4-field
comparison, in order. -/
def consistent (curr : List HighlightItemResult) (items : List HighlightItem) : Prop :=
  ∀ i, sameLists (items.filter fun o => o.lnum == i) (lineExisting curr i) = true

/-- The mutable state of the scan loop of `diffHighlights`: the unconsumed
suffix of the sorted desired items (the cursor `itemIndex` is modelled by the
remaining list) and the three accumulators. -/
structure DiffState where
  pending : List HighlightItem
  remove : List Nat
  removeMarkers : List Nat
  add : List HighlightItemDef
deriving DecidableEq, Repr

/-- One iteration of the scan loop (lines 691-735): the inner cursor loop of
lines 694-703 consumes the maximal run of pending items with `lnum == i`
(it stops at the first item of a different line), then the line is processed
and the contributions are appended to the accumulators. -/
def stepLine (checkMarkers : Bool) (curr : List HighlightItemResult)
    (st : DiffState) (i : Nat) : DiffState :=
  let ex := lineExisting curr i
  let added := st.pending.takeWhile fun o => o.lnum == i
  let rest := st.pending.dropWhile fun o => o.lnum == i
  let c := processLine checkMarkers i ex added
  ⟨rest, st.remove ++ c.1, st.removeMarkers ++ c.2.1, st.add ++ c.2.2⟩

/-- The scan start of line 690: `region[0]` when a region is given, else 0. -/
def regionStart : Option (Nat × Nat) → Nat
  | some r => r.1
  | none => 0

/-- The state after the scan loop of `diffHighlights` (lines 689-736): when
`curr` is non-empty the loop runs over lines `start .. maxLnum` (inclusive);
otherwise the loop body never runs. -/
def diffState (checkMarkers : Bool) (items : List HighlightItem)
    (region : Option (Nat × Nat)) (curr : List HighlightItemResult) : DiffState :=
  let st0 : DiffState := ⟨sortItems items, [], [], []⟩
  if curr.length > 0 then
    let start := regionStart region
    (List.range' start (maxLnum curr + 1 - start)).foldl (stepLine checkMarkers curr) st0
  else st0

/-- The pure part of `diffHighlights` after the remote query (lines 670-740):
the final diff, with the still-unconsumed desired items appended to `add` by
the tail loop of lines 737-739. -/
def diffHighlightsCore (checkMarkers : Bool) (items : List HighlightItem)
    (region : Option (Nat × Nat)) (curr : List HighlightItemResult) : HighlightDiff :=
  let st := diffState checkMarkers items region curr
  ⟨st.remove, st.add ++ st.pending.map convertHighlightItem, st.removeMarkers⟩

/-- Embedding of `diffHighlights` (lines 665-741): the remote query result is the input
`currResult` (`none` models a falsy reply), `tokenCancelled` models
`token?.isCancellationRequested`; line 669 returns `null` when the reply is
falsy or the token is cancelled, otherwise the diff is computed. -/
def diffHighlights (currResult : Option (List HighlightItemResult))
    (tokenCancelled : Bool) (checkMarkers : Bool) (items : List HighlightItem)
    (region : Option (Nat × Nat)) : Option HighlightDiff :=
  match currResult, tokenCancelled with
  | none, _ => none
  | some _, true => none
  | some curr, false => some (diffHighlightsCore checkMarkers items region curr)

/-- The observable content of the caller's `items` array after `diffHighlights`
returns: line 670 sorts the array in place, and it runs only when line 669 did
not return early. -/
def diffHighlightsItemsAfter (currResult : Option (List HighlightItemResult))
    (tokenCancelled : Bool) (items : List HighlightItem) : List HighlightItem :=
  match currResult, tokenCancelled with
  | none, _ => items
  | some _, true => items
  | some _, false => sortItems items

/-- One backend command issued by `applyDiffHighlights`, in issue order. -/
inductive NvimCall where
  | pauseCmd
  | delMarkers (bufnr : Nat) (ns : String) (markers : List Nat)
  | clearLines (bufnr : Nat) (ns : String) (lines : List Nat)
  | setEntries (bufnr : Nat) (ns : String) (entries : List HighlightItemDef) (priority : Nat)
  | resumeCmd (cancelPrevious notify : Bool)
deriving DecidableEq, Repr

/-- Embedding of `applyDiffHighlights` (lines 756-775), as the ordered list of issued
backend calls: nothing at all when the three diff fields are empty, otherwise
a single `pauseNotification` batch holding, in order, the optional
`del_markers`, `clear`, `set` calls, closed by `resumeNotification`. -/
def applyDiffHighlights (bufnr : Nat) (ns : String) (priority : Nat)
    (diff : HighlightDiff) (notify : Bool) : List NvimCall :=
  if diff.remove.length == 0 && diff.add.length == 0 && diff.removeMarkers.length == 0 then
    []
  else
    [NvimCall.pauseCmd]
      ++ (if diff.removeMarkers.length != 0 then
            [NvimCall.delMarkers bufnr ns diff.removeMarkers] else [])
      ++ (if diff.remove.length != 0 then
            [NvimCall.clearLines bufnr ns diff.remove] else [])
      ++ (if diff.add.length != 0 then
            [NvimCall.setEntries bufnr ns diff.add priority] else [])
      ++ [NvimCall.resumeCmd true notify]

/-! ### Interaction serializer consumers -/

/-- An observable event of a modal-surface call: gate acquisition and release,
and the presentation of a modal surface. -/
inductive UiEvent where
  | acquireGate
  | releaseGate
  | surface (kind : String)
deriving DecidableEq, Repr

/-- Modelled from the spec: `Mutex.use` of `src/util/mutex` is not under
`src/`; per section 4.3 of the specification it is a FIFO gate that is
acquired before the wrapped task runs and released when the task settles, on
every exit path. For one call the observable trace is the acquisition, the
task's own events, then the release. -/
def mutexUse {α : Type} (task : List UiEvent × α) : List UiEvent × α :=
  (UiEvent.acquireGate :: task.1 ++ [UiEvent.releaseGate], task.2)

/-- Embedding of `showQuickPick` (lines 206-228): resolves `undefined` at once when the
item source is falsy or empty (line 207); otherwise it acquires the gate
unconditionally and only inside it (line 213) resolves `undefined`, before any
surface is created, when the token is already cancelled; otherwise the
quickpick surface is shown and the user's selection is resolved. -/
def showQuickPick (itemsEmpty tokenCancelled : Bool) (userResult : Option Nat) :
    List UiEvent × Option Nat :=
  if itemsEmpty then ([], none)
  else mutexUse (if tokenCancelled then ([], none)
                 else ([UiEvent.surface "quickpick"], userResult))

/-- Embedding of `showMenuPicker` (lines 256-272): acquires the gate unconditionally and
only inside it (line 258) resolves `-1`, before any menu is created, when the
token is already cancelled; otherwise the menu surface is shown and the user's
selection is resolved. -/
def showMenuPicker (tokenCancelled : Bool) (userResult : Int) :
    List UiEvent × Int :=
  mutexUse (if tokenCancelled then ([], -1)
            else ([UiEvent.surface "menu"], userResult))

/-- Embedding of `showPickerDialog` (lines 500-518): acquires the gate unconditionally and
only inside it (line 502) resolves `undefined`, before any picker is created,
when the token is already cancelled; otherwise the picker surface is shown and
the filtered selection is resolved. -/
def showPickerDialog (tokenCancelled : Bool) (userResult : Option (List Nat)) :
    List UiEvent × Option (List Nat) :=
  mutexUse (if tokenCancelled then ([], none)
            else ([UiEvent.surface "picker"], userResult))

/-! ### Concrete sample data used by witnesses and counterexamples -/

/-- Sample desired item on line 1, used by the C6 counterexample. -/
def sampleLine1 : HighlightItem := ⟨"a", 1, 0, 0, false, false, false⟩

/-- Sample desired item on line 0, used by the C6 counterexample. -/
def sampleLine0 : HighlightItem := ⟨"b", 0, 0, 0, false, false, false⟩

/-- Sample desired item X on line 0. -/
def itemX : HighlightItem := ⟨"x", 0, 0, 1, false, false, false⟩

/-- Sample desired item Y on line 0. -/
def itemY : HighlightItem := ⟨"y", 0, 1, 2, false, false, false⟩

/-- Sample desired item W on line 0. -/
def itemW : HighlightItem := ⟨"w", 0, 2, 3, false, false, false⟩

/-- Backend record matching `itemX` (marker 1). -/
def recX : HighlightItemResult := ⟨"x", 0, 0, 1, 1⟩

/-- Backend record matching `itemY` (marker 2). -/
def recY : HighlightItemResult := ⟨"y", 0, 1, 2, 2⟩

/-- Backend record Z on line 0 (marker 3), matching no desired item. -/
def recZ : HighlightItemResult := ⟨"z", 0, 2, 3, 3⟩

/-- Backend record on line 1 (marker 6). -/
def recL1 : HighlightItemResult := ⟨"a", 1, 0, 1, 6⟩

/-! ### Stability of the sort -/

/-- Inserting into any list commutes with filtering one line: the element is
placed after entries of strictly smaller lines only, so the per-line
subsequences are unchanged. -/
theorem filter_orderedInsert_lnum (i : Nat) (a : HighlightItem) :
    ∀ l : List HighlightItem,
      (List.orderedInsert itemLe a l).filter (fun x => x.lnum == i)
        = ((a :: l).filter fun x => x.lnum == i)
  | [] => rfl
  | b :: l => by
    by_cases h : itemLe a b
    · rw [List.orderedInsert, if_pos h]
    · have hb : b.lnum < a.lnum := Nat.lt_of_not_le h
      rw [List.orderedInsert, if_neg h]
      by_cases pb : b.lnum = i
      · have pa : ¬ a.lnum = i := by omega
        simp [List.filter_cons, pb, pa, filter_orderedInsert_lnum i a l]
      · simp [List.filter_cons, pb, filter_orderedInsert_lnum i a l]

/-- The sort of line 670 is stable: it does not change the subsequence of the
items of any single line. -/
theorem filter_sortItems_lnum (i : Nat) :
    ∀ items : List HighlightItem,
      (sortItems items).filter (fun x => x.lnum == i)
        = items.filter fun x => x.lnum == i
  | [] => rfl
  | a :: items => by
    have ih := filter_sortItems_lnum i items
    rw [sortItems] at ih
    rw [sortItems, List.insertionSort, filter_orderedInsert_lnum, List.filter_cons,
      List.filter_cons, ih]

/-! ### Claim theorems -/

/-- Claim C4: `applyDiffHighlights` issues zero backend calls (and starts no
batch) when all three diff fields are empty; otherwise it issues, inside one
pause/resume batch, exactly the delete-markers, clear-lines, set-entries
commands, in that fixed order, each present exactly when its list is
non-empty. -/
theorem claim_C4_apply_sequence (bufnr : Nat) (ns : String) (priority : Nat)
    (diff : HighlightDiff) (notify : Bool) :
    applyDiffHighlights bufnr ns priority diff notify =
      if diff.remove = [] ∧ diff.add = [] ∧ diff.removeMarkers = [] then []
      else [NvimCall.pauseCmd]
        ++ (if diff.removeMarkers ≠ [] then
              [NvimCall.delMarkers bufnr ns diff.removeMarkers] else [])
        ++ (if diff.remove ≠ [] then
              [NvimCall.clearLines bufnr ns diff.remove] else [])
        ++ (if diff.add ≠ [] then
              [NvimCall.setEntries bufnr ns diff.add priority] else [])
        ++ [NvimCall.resumeCmd true notify] := by
  rcases diff with ⟨r, a, m⟩
  cases r <;> cases a <;> cases m <;> simp [applyDiffHighlights]

/-- Claim C6 counterexample: the caller's items array is not observationally
unchanged — `diffHighlights` sorts it in place, so an input that is not
already sorted by `lnum` comes back reordered. -/
theorem claim_C6_counterexample :
    diffHighlightsItemsAfter (some []) false [sampleLine1, sampleLine0]
      ≠ [sampleLine1, sampleLine0] := by decide

/-- Claim C6 (amended): `diffHighlights` sorts the caller's array in place
(stably, by `lnum` ascending) rather than sorting a copy; the array is
observationally unchanged exactly when it was already sorted by `lnum`, the
per-line subsequences are always preserved, and the array is untouched when
the call returns `null` early. -/
theorem claim_C6_amended (curr : List HighlightItemResult) (tc : Bool)
    (items : List HighlightItem) (i : Nat) :
    (diffHighlightsItemsAfter (some curr) false items = items
        ↔ List.Sorted itemLe items)
    ∧ (sortItems items).filter (fun x => x.lnum == i)
        = (items.filter fun x => x.lnum == i)
    ∧ diffHighlightsItemsAfter none tc items = items
    ∧ diffHighlightsItemsAfter (some curr) true items = items := by
  refine ⟨⟨fun h => ?_, fun h => h.insertionSort_eq⟩,
    filter_sortItems_lnum i items, rfl, rfl⟩
  have h' : sortItems items = items := h
  exact h' ▸ List.sorted_insertionSort itemLe items

/-- Claim C7 counterexample: `diffHighlights` does accept a cancellation token
and does return early with `null` on its account — the same input yields a
diff with the token fresh and `null` with the token cancelled. -/
theorem claim_C7_counterexample :
    diffHighlights (some []) true true [] none = none
    ∧ diffHighlights (some []) false true [] none = some ⟨[], [], []⟩ :=
  ⟨rfl, rfl⟩

/-- Claim C7 (amended): `diffHighlights` accepts an optional cancellation
token and returns `null` when the token is already cancelled after the state
query, or when the query reports no state; otherwise it runs to completion
and returns the computed diff. (`applyDiffHighlights` indeed accepts no
token.) -/
theorem claim_C7_amended (curr : List HighlightItemResult) (tc cm : Bool)
    (items : List HighlightItem) (region : Option (Nat × Nat)) :
    diffHighlights (some curr) tc cm items region
      = (if tc then none else some (diffHighlightsCore cm items region curr))
    ∧ diffHighlights none tc cm items region = none := by
  cases tc <;> exact ⟨rfl, rfl⟩

/-- Claim C8: the wire encoding of a desired highlight item is exactly the
positional 7-field record group, line, startCol, endCol, combine, startIncl,
endIncl, with each boolean encoded as 1 when true and 0 when false. -/
theorem claim_C8_wire_encoding (item : HighlightItem) :
    (convertHighlightItem item).length = 7
    ∧ (convertHighlightItem item)[0]? = some (WireVal.str item.hlGroup)
    ∧ (convertHighlightItem item)[1]? = some (WireVal.num item.lnum)
    ∧ (convertHighlightItem item)[2]? = some (WireVal.num item.colStart)
    ∧ (convertHighlightItem item)[3]? = some (WireVal.num item.colEnd)
    ∧ (convertHighlightItem item)[4]?
        = some (WireVal.num (if item.combine then 1 else 0))
    ∧ (convertHighlightItem item)[5]?
        = some (WireVal.num (if item.start_incl then 1 else 0))
    ∧ (convertHighlightItem item)[6]?
        = some (WireVal.num (if item.end_incl then 1 else 0)) :=
  ⟨rfl, rfl, rfl, rfl, rfl, rfl, rfl, rfl⟩

/-- Claim C9 counterexample: none of the three pickers checks the token before
enqueuing on the gate — with the token already cancelled each of them still
acquires the gate (the canceled value is resolved, and no surface is shown,
but only after acquisition). -/
theorem claim_C9_counterexample :
    UiEvent.acquireGate ∈ (showQuickPick false true none).1
    ∧ UiEvent.acquireGate ∈ (showMenuPicker true 0).1
    ∧ UiEvent.acquireGate ∈ (showPickerDialog true none).1
    ∧ (showQuickPick false true none).2 = none
    ∧ (showMenuPicker true 0).2 = -1
    ∧ (showPickerDialog true none).2 = none := by decide

/-- Claim C9 (amended): with a token that is already cancelled, each of the
three pickers still acquires the gate, then checks the token immediately
after acquisition and resolves its canceled value (`undefined`, `-1`,
`undefined` respectively) without presenting any modal surface; no
pre-enqueue token check is performed. -/
theorem claim_C9_amended (uq : Option Nat) (um : Int) (up : Option (List Nat)) :
    showQuickPick false true uq = ([UiEvent.acquireGate, UiEvent.releaseGate], none)
    ∧ showMenuPicker true um = ([UiEvent.acquireGate, UiEvent.releaseGate], -1)
    ∧ showPickerDialog true up = ([UiEvent.acquireGate, UiEvent.releaseGate], none)
    ∧ showQuickPick true true uq = ([], none)
    ∧ showMenuPicker false um
        = ([UiEvent.acquireGate, UiEvent.surface "menu", UiEvent.releaseGate], um) :=
  ⟨rfl, rfl, rfl, rfl, rfl⟩

/-! ### The per-line prefix match -/

/-- The `skip` loop stops no later than either list's end. -/
theorem lcpSame_le : ∀ (added : List HighlightItem) (ex : List HighlightItemResult),
    lcpSame added ex ≤ added.length ∧ lcpSame added ex ≤ ex.length
  | [], _ => by simp [lcpSame]
  | _ :: _, [] => by simp [lcpSame]
  | a :: as, e :: es => by
    have ih := lcpSame_le as es
    rw [lcpSame]
    by_cases h : isSame a e
    · rw [if_pos h]; simp only [List.length_cons]; omega
    · rw [if_neg h]; simp

/-- Every position below the `skip` count is an `isSame` match. -/
theorem lcpSame_matches :
    ∀ (added : List HighlightItem) (ex : List HighlightItemResult) (j : Nat),
      j < lcpSame added ex →
      ∃ a e, added[j]? = some a ∧ ex[j]? = some e ∧ isSame a e = true
  | [], _, j, hj => by simp [lcpSame] at hj
  | _ :: _, [], j, hj => by simp [lcpSame] at hj
  | a :: as, e :: es, j, hj => by
    rw [lcpSame] at hj
    by_cases h : isSame a e
    · rw [if_pos h] at hj
      cases j with
      | zero => exact ⟨a, e, by simp, by simp, h⟩
      | succ j =>
        obtain ⟨a', e', h1, h2, h3⟩ := lcpSame_matches as es j (by omega)
        exact ⟨a', e', by simpa using h1, by simpa using h2, h3⟩
    · rw [if_neg h] at hj; omega

/-- When the `skip` count stops short of both ends, the stop position is a
genuine mismatch: the prefix is the longest matching one. -/
theorem lcpSame_mismatch :
    ∀ (added : List HighlightItem) (ex : List HighlightItemResult),
      lcpSame added ex < added.length → lcpSame added ex < ex.length →
      ∃ a e, added[lcpSame added ex]? = some a ∧ ex[lcpSame added ex]? = some e
        ∧ isSame a e = false
  | [], _, h1, _ => by simp at h1
  | _ :: _, [], _, h2 => by simp at h2
  | a :: as, e :: es, h1, h2 => by
    by_cases h : isSame a e
    · rw [lcpSame, if_pos h] at h1 h2 ⊢
      simp only [List.length_cons] at h1 h2
      obtain ⟨a', e', g1, g2, g3⟩ := lcpSame_mismatch as es (by omega) (by omega)
      exact ⟨a', e', by simpa using g1, by simpa using g2, g3⟩
    · rw [lcpSame, if_neg h]
      exact ⟨a, e, by simp, by simp, by simpa using h⟩

/-- Unfolding of `stepLine`: it appends exactly the `processLine` contributions. -/
theorem stepLine_eq (cm : Bool) (curr : List HighlightItemResult) (st : DiffState)
    (i : Nat) :
    stepLine cm curr st i =
      ⟨st.pending.dropWhile (fun o => o.lnum == i),
       st.remove ++ (processLine cm i (lineExisting curr i)
          (st.pending.takeWhile fun o => o.lnum == i)).1,
       st.removeMarkers ++ (processLine cm i (lineExisting curr i)
          (st.pending.takeWhile fun o => o.lnum == i)).2.1,
       st.add ++ (processLine cm i (lineExisting curr i)
          (st.pending.takeWhile fun o => o.lnum == i)).2.2⟩ := rfl

/-- The marker-capable branch of `processLine` on a line where both runs are
non-empty. -/
theorem processLine_markerCapable (i : Nat) (e : HighlightItemResult)
    (es : List HighlightItemResult) (a : HighlightItem) (as : List HighlightItem) :
    processLine true i (e :: es) (a :: as) =
      ([], ((e :: es).drop (lcpSame (a :: as) (e :: es))).map (fun o => o.marker),
       ((a :: as).drop (lcpSame (a :: as) (e :: es))).map convertHighlightItem) := by
  simp [processLine]

/-- The line-granular branch of `processLine` on a line where both runs are
non-empty: a no-op under entire pairwise equality, else clear and re-add. -/
theorem processLine_lineGranular (i : Nat) (e : HighlightItemResult)
    (es : List HighlightItemResult) (a : HighlightItem) (as : List HighlightItem) :
    processLine false i (e :: es) (a :: as) =
      if (a :: as).length = (e :: es).length ∧ allSame (a :: as) (e :: es) = true
      then ([], [], [])
      else ([i], [], (a :: as).map convertHighlightItem) := by
  by_cases h : (a :: as).length = (e :: es).length ∧ allSame (a :: as) (e :: es) = true
  · rw [if_pos h]
    simp [processLine, h.1, h.2]
  · rw [if_neg h]
    simp only [processLine]
    simp
    intro hlen
    rcases Bool.eq_false_or_eq_true (allSame (a :: as) (e :: es)) with hb | hb
    · exact absurd ⟨by simpa using hlen, hb⟩ h
    · exact hb

/-- Unfolding of the `every`-style check on cons cells. -/
theorem allSame_cons (a : HighlightItem) (as : List HighlightItem)
    (e : HighlightItemResult) (es : List HighlightItemResult) :
    allSame (a :: as) (e :: es) = (isSame a e && allSame as es) := rfl

/-- Positionwise reading of the `every`-style check of line 729, under equal
lengths. -/
theorem allSame_iff :
    ∀ (added : List HighlightItem) (ex : List HighlightItemResult),
      added.length = ex.length →
      (allSame added ex = true ↔
        ∀ (j : Nat) a e, added[j]? = some a → ex[j]? = some e → isSame a e = true)
  | [], [], _ => by
    simp [allSame]
  | [], _ :: _, h => by simp at h
  | _ :: _, [], h => by simp at h
  | a :: as, e :: es, h => by
    simp only [List.length_cons, Nat.add_right_cancel_iff] at h
    constructor
    · intro hall j a' e' ha he
      rw [allSame_cons, Bool.and_eq_true] at hall
      cases j with
      | zero =>
        simp only [List.getElem?_cons_zero, Option.some_inj] at ha he
        rw [← ha, ← he]; exact hall.1
      | succ j =>
        simp only [List.getElem?_cons_succ] at ha he
        exact ((allSame_iff as es h).mp hall.2) j a' e' ha he
    · intro hpt
      have h0 : isSame a e = true := hpt 0 a e (by simp) (by simp)
      have ht : allSame as es = true := by
        refine (allSame_iff as es h).mpr ?_
        intro j a' e' ha he
        exact hpt (j + 1) a' e' (by simpa using ha) (by simpa using he)
      rw [allSame_cons, h0, ht]
      rfl

/-- Claim C2: on a marker-capable backend, for a line where both the existing
records and the desired run are non-empty, with `k` the length of the longest
common prefix under the 4-field comparison, the line contributes exactly the
markers of `existing[k:]` to `removeMarkers` and exactly the encodings of
`added[k:]` to `addItems` (and nothing to `removeLines`); when `k` equals
either length the corresponding appended list is empty. -/
theorem claim_C2_marker_capable (curr : List HighlightItemResult) (st : DiffState)
    (i k : Nat) (ex : List HighlightItemResult) (added : List HighlightItem)
    (hex : ex = lineExisting curr i)
    (hadded : added = st.pending.takeWhile fun o => o.lnum == i)
    (hk : k = lcpSame added ex)
    (hexne : ex ≠ []) (haddne : added ≠ []) :
    stepLine true curr st i =
      ⟨st.pending.dropWhile (fun o => o.lnum == i), st.remove,
       st.removeMarkers ++ (ex.drop k).map (fun o => o.marker),
       st.add ++ (added.drop k).map convertHighlightItem⟩
    ∧ (∀ j, j < k → ∃ a e, added[j]? = some a ∧ ex[j]? = some e ∧ isSame a e = true)
    ∧ (k < added.length → k < ex.length →
        ∃ a e, added[k]? = some a ∧ ex[k]? = some e ∧ isSame a e = false)
    ∧ (k = ex.length → (ex.drop k).map (fun o => o.marker) = [])
    ∧ (k = added.length → (added.drop k).map convertHighlightItem = []) := by
  subst hk
  refine ⟨?_, fun j hj => lcpSame_matches added ex j hj,
    fun h1 h2 => lcpSame_mismatch added ex h1 h2,
    fun hke => by rw [hke, List.drop_length, List.map_nil],
    fun hka => by rw [hka, List.drop_length, List.map_nil]⟩
  rw [stepLine_eq, ← hex, ← hadded]
  rcases ex with _ | ⟨e, es⟩
  · exact absurd rfl hexne
  rcases added with _ | ⟨a, as⟩
  · exact absurd rfl haddne
  rw [processLine_markerCapable]
  simp

/-- Claim C3: on a line-granular backend, for a line where both the existing
records and the desired run are non-empty, the line is a no-op exactly when
the two runs are entirely pairwise equal (same length and the four comparison
fields match at every position); otherwise the line is appended to
`removeLines` and every desired item of the line is appended to `addItems`. -/
theorem claim_C3_line_granular (curr : List HighlightItemResult) (st : DiffState)
    (i : Nat) (ex : List HighlightItemResult) (added : List HighlightItem)
    (hex : ex = lineExisting curr i)
    (hadded : added = st.pending.takeWhile fun o => o.lnum == i)
    (hexne : ex ≠ []) (haddne : added ≠ []) :
    stepLine false curr st i =
      (if added.length = ex.length ∧ allSame added ex = true then
        ⟨st.pending.dropWhile (fun o => o.lnum == i), st.remove, st.removeMarkers, st.add⟩
      else
        ⟨st.pending.dropWhile (fun o => o.lnum == i), st.remove ++ [i],
         st.removeMarkers, st.add ++ added.map convertHighlightItem⟩)
    ∧ ((added.length = ex.length ∧ allSame added ex = true) ↔
        (added.length = ex.length ∧
          ∀ (j : Nat) a e, added[j]? = some a → ex[j]? = some e → isSame a e = true)) := by
  constructor
  · rw [stepLine_eq, ← hex, ← hadded]
    rcases ex with _ | ⟨e, es⟩
    · exact absurd rfl hexne
    rcases added with _ | ⟨a, as⟩
    · exact absurd rfl haddne
    rw [processLine_lineGranular]
    by_cases h : (a :: as).length = (e :: es).length ∧ allSame (a :: as) (e :: es) = true
    · rw [if_pos h, if_pos h]; simp
    · rw [if_neg h, if_neg h]; simp
  · constructor
    · rintro ⟨hl, hall⟩
      exact ⟨hl, (allSame_iff added ex hl).mp hall⟩
    · rintro ⟨hl, hpt⟩
      exact ⟨hl, (allSame_iff added ex hl).mpr hpt⟩

/-- Claim C2 witness: existing records X, Y, Z against desired X, Y, W on one
line — only Z's marker is removed and only W is added. -/
theorem claim_C2_witness :
    lineExisting [recX, recY, recZ] 0 ≠ []
    ∧ (⟨[itemX, itemY, itemW], [], [], []⟩ : DiffState).pending.takeWhile
        (fun o => o.lnum == 0) ≠ []
    ∧ stepLine true [recX, recY, recZ] ⟨[itemX, itemY, itemW], [], [], []⟩ 0 =
        ⟨[], [], [3], [convertHighlightItem itemW]⟩ := by
  refine ⟨by decide, by decide, ?_⟩
  have h := (claim_C2_marker_capable [recX, recY, recZ]
    ⟨[itemX, itemY, itemW], [], [], []⟩ 0
    (lcpSame ((⟨[itemX, itemY, itemW], [], [], []⟩ : DiffState).pending.takeWhile
        fun o => o.lnum == 0)
      (lineExisting [recX, recY, recZ] 0))
    (lineExisting [recX, recY, recZ] 0)
    ((⟨[itemX, itemY, itemW], [], [], []⟩ : DiffState).pending.takeWhile
      fun o => o.lnum == 0)
    rfl rfl rfl (by decide) (by decide)).1
  rw [h]
  decide

/-- Claim C3 witness: existing records X, Y against desired X, Y, W on one
line under a line-granular backend — the whole line is cleared and all three
desired items are re-added. -/
theorem claim_C3_witness :
    lineExisting [recX, recY] 0 ≠ []
    ∧ (⟨[itemX, itemY, itemW], [], [], []⟩ : DiffState).pending.takeWhile
        (fun o => o.lnum == 0) ≠ []
    ∧ stepLine false [recX, recY] ⟨[itemX, itemY, itemW], [], [], []⟩ 0 =
        ⟨[], [0], [],
         [convertHighlightItem itemX, convertHighlightItem itemY,
          convertHighlightItem itemW]⟩ := by
  refine ⟨by decide, by decide, ?_⟩
  have h := (claim_C3_line_granular [recX, recY]
    ⟨[itemX, itemY, itemW], [], [], []⟩ 0
    (lineExisting [recX, recY] 0)
    ((⟨[itemX, itemY, itemW], [], [], []⟩ : DiffState).pending.takeWhile
      fun o => o.lnum == 0)
    rfl rfl (by decide) (by decide)).1
  rw [h]
  decide

/-! ### Loop invariants of the scan -/

/-- A line's contribution to `linesToRemove` is nothing or the line itself. -/
theorem processLine_remove_sub (cm : Bool) (i : Nat) (ex : List HighlightItemResult)
    (added : List HighlightItem) :
    (processLine cm i ex added).1 = [] ∨ (processLine cm i ex added).1 = [i] := by
  unfold processLine
  split_ifs <;> simp

/-- A line's contribution to `removeMarkers` is a sublist of the markers of
that line's existing records. -/
theorem processLine_markers_sublist (cm : Bool) (i : Nat) (ex : List HighlightItemResult)
    (added : List HighlightItem) :
    List.Sublist (processLine cm i ex added).2.1 (ex.map fun o => o.marker) := by
  unfold processLine
  split_ifs <;>
    first
      | exact List.nil_sublist _
      | exact List.Sublist.refl _
      | exact (List.drop_sublist _ _).map _

/-- Membership in the per-line grouping. -/
theorem mem_lineExisting {curr : List HighlightItemResult} {i : Nat}
    {r : HighlightItemResult} :
    r ∈ lineExisting curr i ↔ r ∈ curr ∧ r.lnum = i := by
  simp [lineExisting, List.mem_filter]

/-- The `Math.max` fold either keeps its seed or returns some record's line. -/
theorem foldl_max_cases :
    ∀ (l : List HighlightItemResult) (acc : Nat),
      l.foldl (fun m o => max m o.lnum) acc = acc
      ∨ ∃ r ∈ l, l.foldl (fun m o => max m o.lnum) acc = r.lnum
  | [], _ => Or.inl rfl
  | o :: l, acc => by
    rw [List.foldl_cons]
    rcases foldl_max_cases l (max acc o.lnum) with h | ⟨r, hr, hrr⟩
    · rcases max_choice acc o.lnum with hm | hm
      · exact Or.inl (h.trans hm)
      · exact Or.inr ⟨o, List.mem_cons_self o l, h.trans hm⟩
    · exact Or.inr ⟨r, List.mem_cons_of_mem o hr, hrr⟩

/-- The value `maxLnum` is 0 or the line of some snapshot record. -/
theorem maxLnum_cases (curr : List HighlightItemResult) :
    maxLnum curr = 0 ∨ ∃ r ∈ curr, maxLnum curr = r.lnum :=
  foldl_max_cases curr 0

/-- The `Math.max` fold bounds its seed and every record's line. -/
theorem foldl_max_le :
    ∀ (l : List HighlightItemResult) (acc : Nat),
      acc ≤ l.foldl (fun m o => max m o.lnum) acc
      ∧ ∀ r ∈ l, r.lnum ≤ l.foldl (fun m o => max m o.lnum) acc
  | [], acc => ⟨Nat.le_refl acc, by intro r hr; simp at hr⟩
  | o :: l, acc => by
    rw [List.foldl_cons]
    obtain ⟨h1, h2⟩ := foldl_max_le l (max acc o.lnum)
    refine ⟨le_trans (Nat.le_max_left acc o.lnum) h1, ?_⟩
    intro r hr
    rcases List.mem_cons.mp hr with rfl | hr
    · exact le_trans (Nat.le_max_right acc r.lnum) h1
    · exact h2 r hr

/-- Every snapshot record's line is bounded by `maxLnum`. -/
theorem le_maxLnum {curr : List HighlightItemResult} {r : HighlightItemResult}
    (h : r ∈ curr) : r.lnum ≤ maxLnum curr :=
  (foldl_max_le curr 0).2 r h

/-- Lines and markers accumulated by the scan loop stay inside the scanned
window, markers come from records of the snapshot on scanned lines, and the
consumed desired items form a prefix of the sorted input all of whose lines
lie in the scanned window. -/
theorem diffLoop_bounds (cm : Bool) (curr : List HighlightItemResult)
    (full : List HighlightItem) (a : Nat) :
    ∀ (n start : Nat) (st : DiffState),
      a ≤ start →
      (∀ l ∈ st.remove, a ≤ l ∧ l < start) →
      (∀ m ∈ st.removeMarkers, ∃ r, r ∈ curr ∧ r.marker = m ∧ a ≤ r.lnum ∧ r.lnum < start) →
      (∃ c, full = c ++ st.pending ∧ ∀ x ∈ c, a ≤ x.lnum ∧ x.lnum < start) →
      (∀ l ∈ ((List.range' start n).foldl (stepLine cm curr) st).remove,
          a ≤ l ∧ l < start + n)
      ∧ (∀ m ∈ ((List.range' start n).foldl (stepLine cm curr) st).removeMarkers,
          ∃ r, r ∈ curr ∧ r.marker = m ∧ a ≤ r.lnum ∧ r.lnum < start + n)
      ∧ (∃ c, full = c ++ ((List.range' start n).foldl (stepLine cm curr) st).pending
          ∧ ∀ x ∈ c, a ≤ x.lnum ∧ x.lnum < start + n)
  | 0, start, st => fun _ h2 h3 h4 => ⟨h2, h3, h4⟩
  | n + 1, start, st => fun h1 h2 h3 h4 => by
    rw [List.range'_succ, List.foldl_cons]
    have hstep := stepLine_eq cm curr st start
    have h2' : ∀ l ∈ (stepLine cm curr st start).remove, a ≤ l ∧ l < start + 1 := by
      rw [hstep]
      intro l hl
      rcases List.mem_append.mp hl with hl | hl
      · have := h2 l hl; omega
      · rcases processLine_remove_sub cm start (lineExisting curr start)
          (st.pending.takeWhile fun o => o.lnum == start) with he | he
        · rw [he] at hl; simp at hl
        · rw [he] at hl
          simp only [List.mem_singleton] at hl
          omega
    have h3' : ∀ m ∈ (stepLine cm curr st start).removeMarkers,
        ∃ r, r ∈ curr ∧ r.marker = m ∧ a ≤ r.lnum ∧ r.lnum < start + 1 := by
      rw [hstep]
      intro m hm
      rcases List.mem_append.mp hm with hm | hm
      · obtain ⟨r, hr1, hr2, hr3, hr4⟩ := h3 m hm
        exact ⟨r, hr1, hr2, hr3, by omega⟩
      · have hsub := (processLine_markers_sublist cm start (lineExisting curr start)
          (st.pending.takeWhile fun o => o.lnum == start)).subset hm
        obtain ⟨r, hr, hrm⟩ := List.mem_map.mp hsub
        obtain ⟨hrc, hrl⟩ := mem_lineExisting.mp hr
        exact ⟨r, hrc, hrm, by omega, by omega⟩
    have h4' : ∃ c, full = c ++ (stepLine cm curr st start).pending
        ∧ ∀ x ∈ c, a ≤ x.lnum ∧ x.lnum < start + 1 := by
      rw [hstep]
      obtain ⟨c, hc1, hc2⟩ := h4
      refine ⟨c ++ (st.pending.takeWhile fun o => o.lnum == start), ?_, ?_⟩
      · rw [hc1, List.append_assoc,
          List.takeWhile_append_dropWhile (fun o => o.lnum == start) st.pending]
      · intro x hx
        rcases List.mem_append.mp hx with hx | hx
        · have := hc2 x hx; omega
        · have := List.mem_takeWhile_imp hx
          have hxl : x.lnum = start := by simpa using this
          omega
    have ih := diffLoop_bounds cm curr full a n (start + 1) (stepLine cm curr st start)
      (by omega) h2' h3' h4'
    have harith : start + 1 + n = start + (n + 1) := by omega
    rw [harith] at ih
    exact ih

/-- Claim C5: with region interval a to b, when the snapshot only holds
records on lines inside the region, the diff's cleared lines all lie in the
region, every removed marker belongs to a snapshot record on a line in the
region, the desired items consumed by the per-line matching loop all lie on
lines in the region, and the remaining (unconsumed) desired items enter the
diff only through the tail append to `addItems`. -/
theorem claim_C5_region (cm : Bool) (items : List HighlightItem)
    (curr : List HighlightItemResult) (a b : Nat)
    (hreg : ∀ r ∈ curr, a ≤ r.lnum ∧ r.lnum < b) :
    (∀ l ∈ (diffHighlightsCore cm items (some (a, b)) curr).remove, a ≤ l ∧ l < b)
    ∧ (∀ m ∈ (diffHighlightsCore cm items (some (a, b)) curr).removeMarkers,
        ∃ r, r ∈ curr ∧ r.marker = m ∧ a ≤ r.lnum ∧ r.lnum < b)
    ∧ (∃ c, sortItems items = c ++ (diffState cm items (some (a, b)) curr).pending
        ∧ ∀ x ∈ c, a ≤ x.lnum ∧ x.lnum < b)
    ∧ (diffHighlightsCore cm items (some (a, b)) curr).add
        = (diffState cm items (some (a, b)) curr).add
          ++ (diffState cm items (some (a, b)) curr).pending.map convertHighlightItem := by
  by_cases hc : curr = []
  · subst hc
    refine ⟨?_, ?_, ⟨[], rfl, ?_⟩, rfl⟩
    · intro l hl; simp [diffHighlightsCore, diffState] at hl
    · intro m hm; simp [diffHighlightsCore, diffState] at hm
    · intro x hx; simp at hx
  · have hlen : curr.length > 0 := List.length_pos.mpr hc
    obtain ⟨r0, hr0⟩ := List.exists_mem_of_ne_nil curr hc
    have hb0 : a < b := by have := hreg r0 hr0; omega
    have hmax : maxLnum curr < b := by
      rcases maxLnum_cases curr with h | ⟨r, hr, hmr⟩
      · omega
      · have := hreg r hr; omega
    have hds : diffState cm items (some (a, b)) curr =
        (List.range' a (maxLnum curr + 1 - a)).foldl (stepLine cm curr)
          ⟨sortItems items, [], [], []⟩ := by
      simp [diffState, regionStart, if_pos hlen]
    have hbounds := diffLoop_bounds cm curr (sortItems items) a
      (maxLnum curr + 1 - a) a ⟨sortItems items, [], [], []⟩
      (Nat.le_refl a)
      (by intro l hl; simp at hl)
      (by intro m hm; simp at hm)
      ⟨[], rfl, by intro x hx; simp at hx⟩
    have hcore : (diffHighlightsCore cm items (some (a, b)) curr).remove
        = (diffState cm items (some (a, b)) curr).remove := rfl
    have hcorem : (diffHighlightsCore cm items (some (a, b)) curr).removeMarkers
        = (diffState cm items (some (a, b)) curr).removeMarkers := rfl
    refine ⟨?_, ?_, ?_, rfl⟩
    · intro l hl
      rw [hcore, hds] at hl
      have := hbounds.1 l hl
      omega
    · intro m hm
      rw [hcorem, hds] at hm
      obtain ⟨r, hr1, hr2, hr3, hr4⟩ := hbounds.2.1 m hm
      exact ⟨r, hr1, hr2, hr3, by omega⟩
    · obtain ⟨c, hc1, hc2⟩ := hbounds.2.2
      rw [hds]
      refine ⟨c, hc1, ?_⟩
      intro x hx
      have := hc2 x hx
      omega

/-- Claim C5 witness: region 1 to 3, one in-region record, one desired item
on line 0 (outside the region); the theorem's hypotheses hold and the cleared
lines stay inside the region. -/
theorem claim_C5_witness :
    (∀ r ∈ [recL1], 1 ≤ r.lnum ∧ r.lnum < 3)
    ∧ ∀ l ∈ (diffHighlightsCore true [itemX] (some (1, 3)) [recL1]).remove,
        1 ≤ l ∧ l < 3 :=
  ⟨by decide, (claim_C5_region true [itemX] [recL1] 1 3 (by decide)).1⟩

/-- The remove-lines accumulator stays strictly increasing: each scanned line
is appended at most once and lines are scanned in increasing order. -/
theorem diffLoop_remove_sorted (cm : Bool) (curr : List HighlightItemResult) :
    ∀ (n start : Nat) (st : DiffState),
      st.remove.Pairwise (· < ·) →
      (∀ l ∈ st.remove, l < start) →
      ((List.range' start n).foldl (stepLine cm curr) st).remove.Pairwise (· < ·)
      ∧ (∀ l ∈ ((List.range' start n).foldl (stepLine cm curr) st).remove,
          l < start + n)
  | 0, start, st => fun h1 h2 => ⟨h1, h2⟩
  | n + 1, start, st => fun h1 h2 => by
    rw [List.range'_succ, List.foldl_cons]
    have hstep := stepLine_eq cm curr st start
    have hsub := processLine_remove_sub cm start (lineExisting curr start)
      (st.pending.takeWhile fun o => o.lnum == start)
    have h1' : (stepLine cm curr st start).remove.Pairwise (· < ·) := by
      rw [hstep]
      refine List.pairwise_append.mpr ⟨h1, ?_, ?_⟩
      · rcases hsub with he | he <;> rw [he] <;> simp
      · intro x hx y hy
        rcases hsub with he | he
        · rw [he] at hy; simp at hy
        · rw [he] at hy
          simp only [List.mem_singleton] at hy
          have := h2 x hx
          omega
    have h2' : ∀ l ∈ (stepLine cm curr st start).remove, l < start + 1 := by
      rw [hstep]
      intro l hl
      rcases List.mem_append.mp hl with hl | hl
      · have := h2 l hl; omega
      · rcases hsub with he | he
        · rw [he] at hl; simp at hl
        · rw [he] at hl
          simp only [List.mem_singleton] at hl
          omega
    have ih := diffLoop_remove_sorted cm curr n (start + 1)
      (stepLine cm curr st start) h1' h2'
    have harith : start + 1 + n = start + (n + 1) := by omega
    rw [harith] at ih
    exact ih

/-- The marker accumulator never holds a marker twice when the snapshot's
markers are pairwise distinct: each snapshot record contributes its marker at
most once, on the single scan of its own line. -/
theorem diffLoop_markers_nodup (cm : Bool) (curr : List HighlightItemResult)
    (hnd : (curr.map fun r => r.marker).Nodup) :
    ∀ (n start : Nat) (st : DiffState),
      st.removeMarkers.Nodup →
      (∀ m ∈ st.removeMarkers, ∃ r, r ∈ curr ∧ r.marker = m ∧ r.lnum < start) →
      ((List.range' start n).foldl (stepLine cm curr) st).removeMarkers.Nodup
      ∧ (∀ m ∈ ((List.range' start n).foldl (stepLine cm curr) st).removeMarkers,
          ∃ r, r ∈ curr ∧ r.marker = m ∧ r.lnum < start + n)
  | 0, start, st => fun h1 h2 => ⟨h1, h2⟩
  | n + 1, start, st => fun h1 h2 => by
    rw [List.range'_succ, List.foldl_cons]
    have hstep := stepLine_eq cm curr st start
    have hplsub : List.Sublist (processLine cm start (lineExisting curr start)
        (st.pending.takeWhile fun o => o.lnum == start)).2.1
        (curr.map fun r => r.marker) := by
      refine (processLine_markers_sublist cm start (lineExisting curr start)
        (st.pending.takeWhile fun o => o.lnum == start)).trans ?_
      exact (List.filter_sublist curr).map _
    have hprov : ∀ m ∈ (processLine cm start (lineExisting curr start)
        (st.pending.takeWhile fun o => o.lnum == start)).2.1,
        ∃ r, r ∈ curr ∧ r.marker = m ∧ r.lnum = start := by
      intro m hm
      have hsub := (processLine_markers_sublist cm start (lineExisting curr start)
        (st.pending.takeWhile fun o => o.lnum == start)).subset hm
      obtain ⟨r, hr, hrm⟩ := List.mem_map.mp hsub
      obtain ⟨hrc, hrl⟩ := mem_lineExisting.mp hr
      exact ⟨r, hrc, hrm, hrl⟩
    have h1' : (stepLine cm curr st start).removeMarkers.Nodup := by
      rw [hstep]
      refine h1.append (hnd.sublist hplsub) ?_
      intro m hm1 hm2
      obtain ⟨r1, hr1c, hr1m, hr1l⟩ := h2 m hm1
      obtain ⟨r2, hr2c, hr2m, hr2l⟩ := hprov m hm2
      have : r1 = r2 := List.inj_on_of_nodup_map hnd hr1c hr2c (by rw [hr1m, hr2m])
      rw [this] at hr1l
      omega
    have h2' : ∀ m ∈ (stepLine cm curr st start).removeMarkers,
        ∃ r, r ∈ curr ∧ r.marker = m ∧ r.lnum < start + 1 := by
      rw [hstep]
      intro m hm
      rcases List.mem_append.mp hm with hm | hm
      · obtain ⟨r, hr1, hr2, hr3⟩ := h2 m hm
        exact ⟨r, hr1, hr2, by omega⟩
      · obtain ⟨r, hr1, hr2, hr3⟩ := hprov m hm
        exact ⟨r, hr1, hr2, by omega⟩
    have ih := diffLoop_markers_nodup cm curr hnd n (start + 1)
      (stepLine cm curr st start) h1' h2'
    have harith : start + 1 + n = start + (n + 1) := by omega
    rw [harith] at ih
    exact ih

/-- Claim C10: every non-null diff returned by `diffHighlights` has a
strictly increasing `remove` list (no line is cleared twice), and, provided
the snapshot's markers are pairwise distinct, `removeMarkers` holds no marker
more than once. -/
theorem claim_C10_wellformed (cm : Bool) (items : List HighlightItem)
    (region : Option (Nat × Nat)) (curr : List HighlightItemResult)
    (d : HighlightDiff)
    (hd : diffHighlights (some curr) false cm items region = some d) :
    d.remove.Pairwise (· < ·)
    ∧ ((curr.map fun r => r.marker).Nodup → d.removeMarkers.Nodup) := by
  have hdd : d = diffHighlightsCore cm items region curr :=
    (Option.some.inj (show some (diffHighlightsCore cm items region curr) = some d
      from hd)).symm
  subst hdd
  by_cases hc : curr.length > 0
  · have hds : diffState cm items region curr =
        (List.range' (regionStart region) (maxLnum curr + 1 - regionStart region)).foldl
          (stepLine cm curr) ⟨sortItems items, [], [], []⟩ := by
      simp [diffState, if_pos hc]
    constructor
    · have h := diffLoop_remove_sorted cm curr (maxLnum curr + 1 - regionStart region)
        (regionStart region) ⟨sortItems items, [], [], []⟩ (by simp)
        (by intro l hl; simp at hl)
      have hr : (diffHighlightsCore cm items region curr).remove
          = (diffState cm items region curr).remove := rfl
      rw [hr, hds]
      exact h.1
    · intro hnd
      have h := diffLoop_markers_nodup cm curr hnd
        (maxLnum curr + 1 - regionStart region)
        (regionStart region) ⟨sortItems items, [], [], []⟩ (by simp)
        (by intro m hm; simp at hm)
      have hr : (diffHighlightsCore cm items region curr).removeMarkers
          = (diffState cm items region curr).removeMarkers := rfl
      rw [hr, hds]
      exact h.1
  · have hds : diffState cm items region curr = ⟨sortItems items, [], [], []⟩ := by
      simp [diffState, if_neg hc]
    constructor
    · have hr : (diffHighlightsCore cm items region curr).remove
          = (diffState cm items region curr).remove := rfl
      rw [hr, hds]
      simp
    · intro _
      have hr : (diffHighlightsCore cm items region curr).removeMarkers
          = (diffState cm items region curr).removeMarkers := rfl
      rw [hr, hds]
      simp

/-- Claim C10 witness: a two-line snapshot with distinct markers under a
line-granular backend and no desired items — the returned diff clears lines
0 and 1, strictly increasing, with a duplicate-free marker list. -/
theorem claim_C10_witness :
    diffHighlights (some [recX, recL1]) false false [] none = some ⟨[0, 1], [], []⟩
    ∧ (⟨[0, 1], [], []⟩ : HighlightDiff).remove.Pairwise (· < ·)
    ∧ (([recX, recL1].map fun r => r.marker).Nodup →
        (⟨[0, 1], [], []⟩ : HighlightDiff).removeMarkers.Nodup) := by
  have h := claim_C10_wellformed false [] none [recX, recL1] ⟨[0, 1], [], []⟩ (by decide)
  exact ⟨by decide, h.1, h.2⟩

/-! ### Idempotence -/

/-- On a sorted pending list whose lines are all at least `i`, the cursor's
maximal run for line `i` is exactly the pending items of line `i`. -/
theorem takeWhile_eq_filter_of_sorted :
    ∀ (pending : List HighlightItem) (i : Nat),
      List.Sorted itemLe pending → (∀ x ∈ pending, i ≤ x.lnum) →
      pending.takeWhile (fun o => o.lnum == i) = pending.filter fun o => o.lnum == i
  | [], _, _, _ => rfl
  | a :: l, i, hs, hge => by
    have hs' : List.Sorted itemLe l := (List.sorted_cons.mp hs).2
    have hrel : ∀ x ∈ l, itemLe a x := (List.sorted_cons.mp hs).1
    by_cases h : a.lnum = i
    · have hb : (a.lnum == i) = true := beq_iff_eq.mpr h
      rw [List.takeWhile_cons, List.filter_cons, hb]
      simp only [if_true]
      rw [takeWhile_eq_filter_of_sorted l i hs'
        (fun x hx => hge x (List.mem_cons_of_mem a hx))]
    · have hb : (a.lnum == i) = false := by simp [h]
      rw [List.takeWhile_cons, List.filter_cons, hb]
      simp only [Bool.false_eq_true, if_false]
      have hnil : l.filter (fun o => o.lnum == i) = [] := by
        rw [List.filter_eq_nil_iff]
        intro x hx
        have h1 : a.lnum ≤ x.lnum := hrel x hx
        have h2 : i ≤ a.lnum := hge a (List.mem_cons_self a l)
        simp only [beq_iff_eq]
        omega
      rw [hnil]

/-- After consuming line `i` from a sorted pending list whose lines are all
at least `i`, every remaining item's line is at least `i + 1`. -/
theorem dropWhile_ge_of_sorted :
    ∀ (pending : List HighlightItem) (i : Nat),
      List.Sorted itemLe pending → (∀ x ∈ pending, i ≤ x.lnum) →
      ∀ x ∈ pending.dropWhile (fun o => o.lnum == i), i + 1 ≤ x.lnum
  | [], _, _, _ => by intro x hx; simp at hx
  | a :: l, i, hs, hge => by
    have hs' : List.Sorted itemLe l := (List.sorted_cons.mp hs).2
    have hrel : ∀ x ∈ l, itemLe a x := (List.sorted_cons.mp hs).1
    by_cases h : a.lnum = i
    · have hb : (a.lnum == i) = true := beq_iff_eq.mpr h
      rw [List.dropWhile_cons, hb]
      simp only [if_true]
      exact dropWhile_ge_of_sorted l i hs'
        (fun x hx => hge x (List.mem_cons_of_mem a hx))
    · have hb : (a.lnum == i) = false := by simp [h]
      rw [List.dropWhile_cons, hb]
      simp only [Bool.false_eq_true, if_false]
      intro x hx
      rcases List.mem_cons.mp hx with rfl | hx
      · have h2 : i ≤ x.lnum := hge x (List.mem_cons_self x l)
        omega
      · have h1 : a.lnum ≤ x.lnum := hrel x hx
        have h2 : i ≤ a.lnum := hge a (List.mem_cons_self a l)
        omega

/-- Consuming line `i` does not disturb the pending items of other lines. -/
theorem filter_dropWhile_of_ne (pending : List HighlightItem) (i j : Nat)
    (hne : j ≠ i) :
    (pending.dropWhile (fun o => o.lnum == i)).filter (fun o => o.lnum == j)
      = pending.filter fun o => o.lnum == j := by
  conv_rhs => rw [← List.takeWhile_append_dropWhile (fun o => o.lnum == i) pending]
  rw [List.filter_append]
  have h : (pending.takeWhile fun o => o.lnum == i).filter
      (fun o => o.lnum == j) = [] := by
    rw [List.filter_eq_nil_iff]
    intro x hx
    have h1 := List.mem_takeWhile_imp hx
    have h2 : x.lnum = i := by simpa using h1
    simp only [beq_iff_eq]
    omega
  rw [h, List.nil_append]

/-- Unfolding of the positionwise comparison on cons cells. -/
theorem sameLists_cons (a : HighlightItem) (as : List HighlightItem)
    (e : HighlightItemResult) (es : List HighlightItemResult) :
    sameLists (a :: as) (e :: es) = (isSame a e && sameLists as es) := rfl

/-- A run that positionwise matches the empty run is empty. -/
theorem sameLists_nil_right :
    ∀ added : List HighlightItem, sameLists added [] = true → added = []
  | [], _ => rfl
  | _ :: _, h => by simp [sameLists] at h

/-- Positionwise matching runs have equal lengths. -/
theorem sameLists_length :
    ∀ (added : List HighlightItem) (ex : List HighlightItemResult),
      sameLists added ex = true → added.length = ex.length
  | [], [], _ => rfl
  | [], _ :: _, h => by simp [sameLists] at h
  | _ :: _, [], h => by simp [sameLists] at h
  | a :: as, e :: es, h => by
    rw [sameLists_cons, Bool.and_eq_true] at h
    simp only [List.length_cons]
    rw [sameLists_length as es h.2]

/-- On positionwise matching runs the skip loop consumes everything. -/
theorem sameLists_lcp :
    ∀ (added : List HighlightItem) (ex : List HighlightItemResult),
      sameLists added ex = true → lcpSame added ex = added.length
  | [], [], _ => rfl
  | [], _ :: _, h => by simp [sameLists] at h
  | _ :: _, [], h => by simp [sameLists] at h
  | a :: as, e :: es, h => by
    rw [sameLists_cons, Bool.and_eq_true] at h
    rw [lcpSame, if_pos h.1, sameLists_lcp as es h.2, List.length_cons]

/-- Positionwise matching runs pass the `every`-style check. -/
theorem sameLists_allSame :
    ∀ (added : List HighlightItem) (ex : List HighlightItemResult),
      sameLists added ex = true → allSame added ex = true
  | [], _, _ => rfl
  | _ :: _, [], h => by simp [sameLists] at h
  | a :: as, e :: es, h => by
    rw [sameLists_cons, Bool.and_eq_true] at h
    rw [allSame_cons, h.1, sameLists_allSame as es h.2]
    rfl

/-- A line whose existing records positionwise match its desired run
contributes nothing to the diff, in either capability mode. -/
theorem processLine_noop (cm : Bool) (i : Nat) :
    ∀ (added : List HighlightItem) (ex : List HighlightItemResult),
      sameLists added ex = true → processLine cm i ex added = ([], [], [])
  | [], [], _ => by cases cm <;> rfl
  | [], _ :: _, h => by simp [sameLists] at h
  | _ :: _, [], h => by simp [sameLists] at h
  | a :: as, e :: es, h => by
    have hlen := sameLists_length (a :: as) (e :: es) h
    have hlcp := sameLists_lcp (a :: as) (e :: es) h
    have hall := sameLists_allSame (a :: as) (e :: es) h
    cases cm with
    | false => rw [processLine_lineGranular, if_pos ⟨hlen, hall⟩]
    | true =>
      rw [processLine_markerCapable, hlcp, hlen]
      have hd1 : (e :: es).drop (e :: es).length = [] := List.drop_length (e :: es)
      have hd2 : (a :: as).drop (e :: es).length = [] :=
        List.drop_eq_nil_of_le (Nat.le_of_eq hlen)
      rw [hd1, hd2, List.map_nil, List.map_nil]

/-- When the snapshot is, line by line, positionwise consistent with the
sorted pending items, the scan loop consumes exactly the pending items of the
scanned lines and accumulates nothing. -/
theorem diffLoop_noop (cm : Bool) (curr : List HighlightItemResult) :
    ∀ (n start : Nat) (st : DiffState),
      List.Sorted itemLe st.pending →
      (∀ x ∈ st.pending, start ≤ x.lnum) →
      (∀ i, start ≤ i →
        sameLists (st.pending.filter fun o => o.lnum == i)
          (lineExisting curr i) = true) →
      ((List.range' start n).foldl (stepLine cm curr) st).remove = st.remove
      ∧ ((List.range' start n).foldl (stepLine cm curr) st).removeMarkers
          = st.removeMarkers
      ∧ ((List.range' start n).foldl (stepLine cm curr) st).add = st.add
      ∧ List.Sorted itemLe
          ((List.range' start n).foldl (stepLine cm curr) st).pending
      ∧ (∀ x ∈ ((List.range' start n).foldl (stepLine cm curr) st).pending,
          start + n ≤ x.lnum)
      ∧ (∀ i, start + n ≤ i →
          sameLists ((((List.range' start n).foldl (stepLine cm curr) st).pending).filter
            fun o => o.lnum == i) (lineExisting curr i) = true)
  | 0, start, st => fun h1 h2 h3 => ⟨rfl, rfl, rfl, h1, h2, h3⟩
  | n + 1, start, st => fun h1 h2 h3 => by
    rw [List.range'_succ, List.foldl_cons]
    have htake : st.pending.takeWhile (fun o => o.lnum == start)
        = st.pending.filter (fun o => o.lnum == start) :=
      takeWhile_eq_filter_of_sorted st.pending start h1 h2
    have hnoop : processLine cm start (lineExisting curr start)
        (st.pending.takeWhile fun o => o.lnum == start) = ([], [], []) := by
      rw [htake]
      exact processLine_noop cm start _ _ (h3 start (Nat.le_refl start))
    have hstep : stepLine cm curr st start
        = ⟨st.pending.dropWhile (fun o => o.lnum == start),
           st.remove, st.removeMarkers, st.add⟩ := by
      rw [stepLine_eq, hnoop]
      simp
    rw [hstep]
    have hd1 : List.Sorted itemLe (st.pending.dropWhile fun o => o.lnum == start) :=
      h1.sublist (List.dropWhile_sublist _)
    have hd2 : ∀ x ∈ st.pending.dropWhile (fun o => o.lnum == start),
        start + 1 ≤ x.lnum :=
      dropWhile_ge_of_sorted st.pending start h1 h2
    have hd3 : ∀ i, start + 1 ≤ i →
        sameLists ((st.pending.dropWhile fun o => o.lnum == start).filter
          fun o => o.lnum == i) (lineExisting curr i) = true := by
      intro i hi
      rw [filter_dropWhile_of_ne st.pending start i (by omega)]
      exact h3 i (by omega)
    have ih := diffLoop_noop cm curr n (start + 1)
      ⟨st.pending.dropWhile (fun o => o.lnum == start),
       st.remove, st.removeMarkers, st.add⟩ hd1 hd2 hd3
    have harith : start + 1 + n = start + (n + 1) := by omega
    rw [harith] at ih
    exact ih

/-- Lines beyond the highest reported line carry no records. -/
theorem lineExisting_eq_nil_of_gt (curr : List HighlightItemResult) (i : Nat)
    (h : maxLnum curr < i) : lineExisting curr i = [] := by
  rw [lineExisting, List.filter_eq_nil_iff]
  intro r hr
  have := le_maxLnum hr
  simp only [beq_iff_eq]
  omega

/-- Claim C1: idempotence of reconciliation — against any snapshot whose
per-line records positionwise equal the desired items under the 4-field
comparison (the state reached by applying a previous diff), recomputing the
diff with the same desired items yields an empty diff: `remove`,
`removeMarkers` and `add` all empty, in either capability mode. -/
theorem claim_C1_idempotence (cm : Bool) (items : List HighlightItem)
    (curr : List HighlightItemResult) (h : consistent curr items) :
    diffHighlightsCore cm items none curr = ⟨[], [], []⟩ := by
  by_cases hc : curr = []
  · subst hc
    have hitems : items = [] := by
      cases hi : items with
      | nil => rfl
      | cons a rest =>
        exfalso
        have h0 := h a.lnum
        rw [hi] at h0
        have hline : lineExisting [] a.lnum = [] := rfl
        rw [hline] at h0
        have hfil := sameLists_nil_right _ h0
        rw [List.filter_cons] at hfil
        simp at hfil
    subst hitems
    rfl
  · have hlen : curr.length > 0 := List.length_pos.mpr hc
    have hds : diffState cm items none curr =
        (List.range' 0 (maxLnum curr + 1)).foldl (stepLine cm curr)
          ⟨sortItems items, [], [], []⟩ := by
      simp [diffState, regionStart, if_pos hlen]
    have hloop := diffLoop_noop cm curr (maxLnum curr + 1) 0
      ⟨sortItems items, [], [], []⟩
      (List.sorted_insertionSort itemLe items)
      (fun x _ => Nat.zero_le x.lnum)
      (by
        intro i _
        show sameLists ((sortItems items).filter fun o => o.lnum == i) _ = true
        rw [filter_sortItems_lnum]
        exact h i)
    obtain ⟨e1, e2, e3, _, e5, e6⟩ := hloop
    have hpend : ((List.range' 0 (maxLnum curr + 1)).foldl (stepLine cm curr)
        ⟨sortItems items, [], [], []⟩).pending = [] := by
      by_contra hne
      obtain ⟨x, hx⟩ := List.exists_mem_of_ne_nil _ hne
      have hxl : maxLnum curr + 1 ≤ x.lnum := by
        have := e5 x hx; omega
      have h6 := e6 x.lnum (by omega)
      rw [lineExisting_eq_nil_of_gt curr x.lnum (by omega)] at h6
      have hfil := sameLists_nil_right _ h6
      have hmem : x ∈ (((List.range' 0 (maxLnum curr + 1)).foldl (stepLine cm curr)
          ⟨sortItems items, [], [], []⟩).pending.filter fun o => o.lnum == x.lnum) := by
        rw [List.mem_filter]
        exact ⟨hx, by simp⟩
      rw [hfil] at hmem
      simp at hmem
    show (⟨(diffState cm items none curr).remove,
        (diffState cm items none curr).add
          ++ (diffState cm items none curr).pending.map convertHighlightItem,
        (diffState cm items none curr).removeMarkers⟩ : HighlightDiff) = ⟨[], [], []⟩
    rw [hds, e1, e3, e2, hpend]
    rfl

/-- Claim C1 witness: a one-item desired state against its own matching
backend record gives a fully empty diff. -/
theorem claim_C1_witness :
    consistent [recX] [itemX]
    ∧ diffHighlightsCore true [itemX] none [recX] = ⟨[], [], []⟩ := by
  have hcons : consistent [recX] [itemX] := by
    intro i
    cases i with
    | zero => decide
    | succ n => rfl
  exact ⟨hcons, claim_C1_idempotence true [itemX] [recX] hcons⟩

end CocWindow
